import Mathlib

/-!
Verification of the particle-partition, injection-position and position-update
kernels of the WarpX particle core, shallowly embedded from:

* Source/Particles/Sorting/Partition.cpp
  (PhysicalParticleContainer::PartitionParticlesInBuffers)
* Source/Initialization/InjectorPosition.H
  (InjectorPositionRandom / RandomPlane / Regular, InjectorPosition,
   insideBounds / insideBoundsInclusive / overlapsWith)
* Source/Particles/Pusher/UpdatePosition.H
  (UpdatePosition, UpdatePositionImplicit)

Machine reals (amrex::Real / amrex::ParticleReal) are embedded as exact
rationals; std::sqrt is an abstract function parameter; C++ `int` / `long`
are embedded as Int (with Int.tdiv / Int.tmod for C++ truncated division);
the compile-time spatial-dimensionality selection (WARPX_DIM_3D / _RZ / _XZ /
_1D_Z) is an explicit DimMode parameter, one constructor per build mode.
-/

namespace WarpXProof

/-! ## Sorting primitives (SortingUtils.H is not under src/) -/

/-- Modelled from the spec: `stablePartition` of SortingUtils.H is not in
src/.  "Stable partition: reordering by a boolean predicate that preserves
each group's internal relative order" — elements whose buffer flag is `false`
(fine) first, in input order, then elements whose flag is `true` (buffer), in
input order. -/
def stablePartition (flag : Nat → Bool) (l : List Nat) : List Nat :=
  l.filter (fun i => !flag i) ++ l.filter (fun i => flag i)

/-- Modelled from the spec: the distance from the start of the array to the
separator returned by `stablePartition` (`iteratorDistance(pid.begin(), sep)`),
i.e. the number of fine (un-flagged) elements. -/
def sepIndex (flag : Nat → Bool) (l : List Nat) : Nat :=
  (l.filter (fun i => !flag i)).length

/-- Modelled from the spec: the reorder step of §4.6 — `amrex::gatherParticles`
followed by the tile swap (not in src/): destination slot `k` of the new tile
holds the source data originally at slot `P[k]`, for every attribute array
(the element type `α` stands for one row across all attribute arrays).  `d` is
a default for out-of-range reads, never used on a permutation of `[0, np)`. -/
def gatherTile {α : Type} (tile : List α) (pid : List Nat) (d : α) : List α :=
  pid.map (fun k => tile.getD k d)

/-! ## PartitionParticlesInBuffers (Partition.cpp)

The per-cell masks enter only through the per-particle flags computed by
`fillBufferFlag` / `fillBufferFlagRemainingParticles` (SortingUtils.H, not in
src/): those kernels map each particle to the mask value at its cell.  We
embed a mask directly as that per-particle Boolean flag.  The two counts are
passed by reference (`long&`), so their incoming values are part of a call. -/

/-- Arguments (and referenced statics / members) of
`PhysicalParticleContainer::PartitionParticlesInBuffers`. -/
structure PartitionArgs where
  np : Nat
  n_current_deposition_buffer : Int
  n_field_gather_buffer : Int
  current_masks : Nat → Bool
  gather_masks : Nat → Bool
  m_deposit_on_main_grid : Bool
  m_gather_from_main_grid : Bool
  lev : Nat
  nfine_current_in : Int
  nfine_gather_in : Int

/-- `n_field_gather_buffer >= n_current_deposition_buffer`: the gather buffer
is selected as the larger buffer (ties go to gather). -/
def primaryIsGather (a : PartitionArgs) : Bool :=
  decide (a.n_current_deposition_buffer ≤ a.n_field_gather_buffer)

/-- The mask of the larger buffer (`bmasks` before the second pass). -/
def primaryFlag (a : PartitionArgs) : Nat → Bool :=
  if primaryIsGather a then a.gather_masks else a.current_masks

/-- The mask of the other (smaller) buffer, used by the second pass. -/
def secondaryFlag (a : PartitionArgs) : Nat → Bool :=
  if primaryIsGather a then a.current_masks else a.gather_masks

/-- `n_buf`: the width of the smaller buffer. -/
def secondaryWidth (a : PartitionArgs) : Int :=
  if primaryIsGather a then a.n_current_deposition_buffer
  else a.n_field_gather_buffer

/-- `pid` after the first stable partition of all `np` indices by the larger
buffer's flag. -/
def firstPass (a : PartitionArgs) : List Nat :=
  stablePartition (primaryFlag a) (List.range a.np)

/-- `n_fine`: the separator of the first pass. -/
def nFine (a : PartitionArgs) : Nat :=
  sepIndex (primaryFlag a) (List.range a.np)

/-- The back segment `[n_fine, np)` of the first pass. -/
def backSegment (a : PartitionArgs) : List Nat :=
  (firstPass a).drop (nFine a)

/-- `pid` after the second pass: the front segment untouched, the back segment
stable-partitioned by the smaller buffer's flag. -/
def secondPass (a : PartitionArgs) : List Nat :=
  (firstPass a).take (nFine a) ++ stablePartition (secondaryFlag a) (backSegment a)

/-- `iteratorDistance(pid.begin(), sep2)`: the sub-split point of the second
pass, counted from the start of the whole array. -/
def subSplit (a : PartitionArgs) : Int :=
  (nFine a : Int) + (sepIndex (secondaryFlag a) (backSegment a) : Int)

/-- The `(nfine_current, nfine_gather, pid)` triple produced by the branch
structure of Partition.cpp lines 90–121, before the policy overrides.  On the
path where the smaller width is not positive (`n_buf > 0` fails), the
non-primary count is never assigned and keeps its incoming value. -/
def partitionCore (a : PartitionArgs) : Int × Int × List Nat :=
  if a.n_current_deposition_buffer = a.n_field_gather_buffer then
    ((nFine a : Int), (nFine a : Int), firstPass a)
  else if nFine a = a.np then
    ((a.np : Int), (a.np : Int), firstPass a)
  else if 0 < secondaryWidth a then
    if primaryIsGather a then (subSplit a, (nFine a : Int), secondPass a)
    else ((nFine a : Int), subSplit a, secondPass a)
  else
    if primaryIsGather a then (a.nfine_current_in, (nFine a : Int), firstPass a)
    else ((nFine a : Int), a.nfine_gather_in, firstPass a)

/-- `nfine_current` after the "deposit on coarsest grid only" override. -/
def finalCurrent (a : PartitionArgs) : Int :=
  if a.m_deposit_on_main_grid = true ∧ 0 < a.lev then 0 else (partitionCore a).1

/-- `nfine_gather` after the "gather from coarsest grid only" override. -/
def finalGather (a : PartitionArgs) : Int :=
  if a.m_gather_from_main_grid = true ∧ 0 < a.lev then 0 else (partitionCore a).2.1

/-- Result of one call: the two counts (as left in the by-reference
parameters), the permutation, whether the tile was physically reordered, and
the tile contents on return. -/
structure PartitionResult (α : Type) where
  nfine_current : Int
  nfine_gather : Int
  pid : List Nat
  reordered : Bool
  tile : List α

/-- `PhysicalParticleContainer::PartitionParticlesInBuffers` (Partition.cpp):
two-level stable partition, policy overrides, then a conditional reorder of
the particle tile by the final permutation. -/
def PartitionParticlesInBuffers {α : Type} (a : PartitionArgs)
    (tile : List α) (d : α) : PartitionResult α :=
  { nfine_current := finalCurrent a
    nfine_gather := finalGather a
    pid := (partitionCore a).2.2
    reordered := decide (finalCurrent a ≠ (a.np : Int))
                   || decide (finalGather a ≠ (a.np : Int))
    tile := if decide (finalCurrent a ≠ (a.np : Int))
               || decide (finalGather a ≠ (a.np : Int)) then
              gatherTile tile (partitionCore a).2.2 d
            else tile }

/-! ## Basic facts about the partition primitives -/

lemma stablePartition_perm (flag : Nat → Bool) (l : List Nat) :
    (stablePartition flag l).Perm l := by
  unfold stablePartition
  have h2 : l.filter (fun i => !!flag i) = l.filter (fun i => flag i) :=
    List.filter_congr (fun x _ => by simp)
  have h := List.filter_append_perm (fun i => !flag i) l
  rwa [h2] at h

lemma length_stablePartition (flag : Nat → Bool) (l : List Nat) :
    (stablePartition flag l).length = l.length :=
  (stablePartition_perm flag l).length_eq

lemma sepIndex_le_length (flag : Nat → Bool) (l : List Nat) :
    sepIndex flag l ≤ l.length :=
  List.length_filter_le _ l

lemma nFine_le_np (a : PartitionArgs) : nFine a ≤ a.np := by
  have h := sepIndex_le_length (primaryFlag a) (List.range a.np)
  simpa using h

lemma length_firstPass (a : PartitionArgs) : (firstPass a).length = a.np := by
  have h := length_stablePartition (primaryFlag a) (List.range a.np)
  simpa using h

lemma length_backSegment (a : PartitionArgs) :
    (backSegment a).length = a.np - nFine a := by
  unfold backSegment
  rw [List.length_drop, length_firstPass]

lemma subSplit_nonneg (a : PartitionArgs) : 0 ≤ subSplit a := by
  unfold subSplit
  positivity

lemma subSplit_le_np (a : PartitionArgs) : subSplit a ≤ (a.np : Int) := by
  unfold subSplit
  have h1 := nFine_le_np a
  have h2 : sepIndex (secondaryFlag a) (backSegment a) ≤ a.np - nFine a := by
    have := sepIndex_le_length (secondaryFlag a) (backSegment a)
    rwa [length_backSegment] at this
  omega

lemma indexOf_append_left {l₁ l₂ : List Nat} {a : Nat} (h : a ∈ l₁) :
    (l₁ ++ l₂).indexOf a = l₁.indexOf a := by
  induction l₁ with
  | nil => cases h
  | cons b t ih =>
    by_cases hba : b = a
    · subst hba
      simp [List.indexOf_cons]
    · have hmem : a ∈ t := by
        rcases List.mem_cons.mp h with h1 | h1
        · exact absurd h1.symm hba
        · exact h1
      rw [List.cons_append, List.indexOf_cons, List.indexOf_cons,
        beq_eq_false_iff_ne.mpr hba]
      simp [ih hmem]

lemma indexOf_append_right {l₁ l₂ : List Nat} {a : Nat} (h : a ∉ l₁) :
    (l₁ ++ l₂).indexOf a = l₁.length + l₂.indexOf a := by
  induction l₁ with
  | nil => simp
  | cons b t ih =>
    have hba : b ≠ a := fun he => h (he ▸ List.mem_cons_self b t)
    have hta : a ∉ t := fun ht => h (List.mem_cons_of_mem b ht)
    rw [List.cons_append, List.indexOf_cons, beq_eq_false_iff_ne.mpr hba]
    simp only [Bool.cond_false, ih hta, List.length_cons]
    omega

lemma sorted_indexOf_lt {l : List Nat} (hs : List.Sorted (· < ·) l)
    {i j : Nat} (hi : i ∈ l) (hj : j ∈ l) (hij : i < j) :
    l.indexOf i < l.indexOf j := by
  induction l with
  | nil => cases hi
  | cons a t ih =>
    rw [List.sorted_cons] at hs
    obtain ⟨ha, ht⟩ := hs
    by_cases hai : a = i
    · subst hai
      have haj : a ≠ j := by omega
      rw [List.indexOf_cons, List.indexOf_cons, beq_eq_false_iff_ne.mpr haj,
        beq_self_eq_true]
      simp
    · have hi' : i ∈ t := by
        rcases List.mem_cons.mp hi with h1 | h1
        · exact absurd h1.symm hai
        · exact h1
      have haj : a ≠ j := by
        intro h
        subst h
        have := ha i hi'
        omega
      have hj' : j ∈ t := by
        rcases List.mem_cons.mp hj with h1 | h1
        · exact absurd h1.symm haj
        · exact h1
      rw [List.indexOf_cons, List.indexOf_cons,
        beq_eq_false_iff_ne.mpr hai, beq_eq_false_iff_ne.mpr haj]
      simp only [Bool.cond_false]
      have := ih ht hi' hj'
      omega

lemma stablePartition_filter_self (f : Nat → Bool) (l : List Nat) :
    stablePartition f (l.filter (fun i => f i)) = l.filter (fun i => f i) := by
  simp [stablePartition, List.filter_filter]

lemma firstPass_take (a : PartitionArgs) :
    (firstPass a).take (nFine a)
      = (List.range a.np).filter (fun i => !primaryFlag a i) := by
  unfold firstPass stablePartition nFine sepIndex
  exact List.take_left' rfl

lemma backSegment_filter (a : PartitionArgs) :
    backSegment a = (List.range a.np).filter (fun i => primaryFlag a i) := by
  unfold backSegment firstPass stablePartition nFine sepIndex
  exact List.drop_left' rfl

lemma secondPass_eq (a : PartitionArgs) :
    secondPass a
      = (List.range a.np).filter (fun i => !primaryFlag a i)
        ++ stablePartition (secondaryFlag a)
             ((List.range a.np).filter (fun i => primaryFlag a i)) := by
  unfold secondPass
  rw [firstPass_take, backSegment_filter]

lemma firstPass_eq_blocks (a : PartitionArgs) :
    firstPass a
      = (List.range a.np).filter (fun i => !primaryFlag a i)
        ++ stablePartition (primaryFlag a)
             ((List.range a.np).filter (fun i => primaryFlag a i)) := by
  rw [stablePartition_filter_self]
  rfl

lemma blocks_indexOf_lt (f g : Nat → Bool) (n : Nat) {i j : Nat}
    (hij : i < j) (hj : j < n) (hf : f i = f j)
    (hg : f i = true → g i = g j) :
    (((List.range n).filter (fun x => !f x)
      ++ stablePartition g ((List.range n).filter (fun x => f x))).indexOf i)
    < (((List.range n).filter (fun x => !f x)
      ++ stablePartition g ((List.range n).filter (fun x => f x))).indexOf j) := by
  have hi : i ∈ List.range n := List.mem_range.mpr (by omega)
  have hjm : j ∈ List.range n := List.mem_range.mpr hj
  have hsF : List.Sorted (· < ·) ((List.range n).filter (fun x => !f x)) :=
    (List.sorted_lt_range n).filter _
  have hsFf : List.Sorted (· < ·) ((List.range n).filter (fun x => f x)) :=
    (List.sorted_lt_range n).filter _
  cases hfi : f i with
  | false =>
    have hfj : f j = false := by rw [← hf]; exact hfi
    have hiF : i ∈ (List.range n).filter (fun x => !f x) :=
      List.mem_filter.mpr ⟨hi, by simp [hfi]⟩
    have hjF : j ∈ (List.range n).filter (fun x => !f x) :=
      List.mem_filter.mpr ⟨hjm, by simp [hfj]⟩
    rw [indexOf_append_left hiF, indexOf_append_left hjF]
    exact sorted_indexOf_lt hsF hiF hjF hij
  | true =>
    have hfj : f j = true := by rw [← hf]; exact hfi
    have hiFf : i ∈ (List.range n).filter (fun x => f x) :=
      List.mem_filter.mpr ⟨hi, by simp [hfi]⟩
    have hjFf : j ∈ (List.range n).filter (fun x => f x) :=
      List.mem_filter.mpr ⟨hjm, by simp [hfj]⟩
    have hiF : i ∉ (List.range n).filter (fun x => !f x) := by
      intro hmem
      have := (List.mem_filter.mp hmem).2
      simp [hfi] at this
    have hjF : j ∉ (List.range n).filter (fun x => !f x) := by
      intro hmem
      have := (List.mem_filter.mp hmem).2
      simp [hfj] at this
    rw [indexOf_append_right hiF, indexOf_append_right hjF]
    apply Nat.add_lt_add_left
    have hgij : g i = g j := hg hfi
    unfold stablePartition
    cases hgi : g i with
    | false =>
      have hgj : g j = false := by rw [← hgij]; exact hgi
      have hiG : i ∈ ((List.range n).filter (fun x => f x)).filter
          (fun x => !g x) := List.mem_filter.mpr ⟨hiFf, by simp [hgi]⟩
      have hjG : j ∈ ((List.range n).filter (fun x => f x)).filter
          (fun x => !g x) := List.mem_filter.mpr ⟨hjFf, by simp [hgj]⟩
      rw [indexOf_append_left hiG, indexOf_append_left hjG]
      exact sorted_indexOf_lt (hsFf.filter _) hiG hjG hij
    | true =>
      have hgj : g j = true := by rw [← hgij]; exact hgi
      have hiG : i ∈ ((List.range n).filter (fun x => f x)).filter
          (fun x => g x) := List.mem_filter.mpr ⟨hiFf, by simp [hgi]⟩
      have hjG : j ∈ ((List.range n).filter (fun x => f x)).filter
          (fun x => g x) := List.mem_filter.mpr ⟨hjFf, by simp [hgj]⟩
      have hiG0 : i ∉ ((List.range n).filter (fun x => f x)).filter
          (fun x => !g x) := by
        intro hmem
        have := (List.mem_filter.mp hmem).2
        simp [hgi] at this
      have hjG0 : j ∉ ((List.range n).filter (fun x => f x)).filter
          (fun x => !g x) := by
        intro hmem
        have := (List.mem_filter.mp hmem).2
        simp [hgj] at this
      rw [indexOf_append_right hiG0, indexOf_append_right hjG0]
      apply Nat.add_lt_add_left
      exact sorted_indexOf_lt (hsFf.filter _) hiG hjG hij

lemma partitionCore_pid_cases (a : PartitionArgs) :
    (partitionCore a).2.2 = firstPass a ∨ (partitionCore a).2.2 = secondPass a := by
  unfold partitionCore
  split_ifs <;> simp

lemma partitionCore_bounds (a : PartitionArgs)
    (h1 : 0 ≤ a.nfine_current_in) (h2 : a.nfine_current_in ≤ (a.np : Int))
    (h3 : 0 ≤ a.nfine_gather_in) (h4 : a.nfine_gather_in ≤ (a.np : Int)) :
    (0 ≤ (partitionCore a).1 ∧ (partitionCore a).1 ≤ (a.np : Int))
    ∧ (0 ≤ (partitionCore a).2.1 ∧ (partitionCore a).2.1 ≤ (a.np : Int)) := by
  have hn := nFine_le_np a
  have hs1 := subSplit_nonneg a
  have hs2 := subSplit_le_np a
  unfold partitionCore
  split_ifs <;> dsimp only <;> refine ⟨⟨?_, ?_⟩, ?_, ?_⟩ <;> omega

/-! ## InjectorPosition.H -/

/-- The compile-time spatial-dimensionality mode (WARPX_DIM_3D, WARPX_DIM_RZ,
WARPX_DIM_XZ, WARPX_DIM_1D_Z), made an explicit parameter. -/
inductive DimMode where
  | dim3
  | rz
  | xz
  | z1
deriving DecidableEq

/-- amrex::XDim3 (three machine reals, embedded as rationals). -/
structure XDim3 where
  x : ℚ
  y : ℚ
  z : ℚ
deriving DecidableEq

/-- amrex::Dim3 / amrex::IntVect: three C++ ints. -/
structure Int3 where
  x : Int
  y : Int
  z : Int
deriving DecidableEq

/-- amrex::RandomEngine: embedded as the stream of values the uniform
generator `amrex::Random` will return, each in `[0,1)`. -/
def RNG : Type := Nat → ℚ

/-- `InjectorPositionRandom::getPositionUnitBox`: three successive uniform
draws, in all dimensionality modes. -/
def InjectorPositionRandom.getPositionUnitBox (e : RNG) : XDim3 :=
  ⟨e 0, e 1, e 2⟩

/-- `InjectorPositionRandomPlane::getPositionUnitBox`: one component fixed to
zero according to `dir`, the remainder drawn; the branch taken depends on the
dimensionality mode. -/
def InjectorPositionRandomPlane.getPositionUnitBox
    (dim : DimMode) (dir : Int) (e : RNG) : XDim3 :=
  match dim with
  | .dim3 | .rz =>
    if dir = 0 then ⟨0, e 0, e 1⟩
    else if dir = 1 then ⟨e 0, 0, e 1⟩
    else ⟨e 0, e 1, 0⟩
  | .xz =>
    if dir = 0 then ⟨0, e 0, 0⟩
    else if dir = 1 then ⟨e 0, e 1, 0⟩
    else ⟨e 0, 0, 0⟩
  | .z1 =>
    if dir = 0 then ⟨e 0, 0, 0⟩
    else if dir = 1 then ⟨e 0, 0, 0⟩
    else ⟨0, 0, 0⟩

/-- The per-axis point counts `(nx, ny, nz)` of the regular lattice: the
counts per cell scaled by the refinement factor, except that in RZ mode the
azimuthal count `ppc.z` is not refined, and collapsed axes have count 1. -/
def regularCounts (dim : DimMode) (ppc : Int3) (ref_fac : Int3) :
    Int × Int × Int :=
  match dim with
  | .dim3 => (ref_fac.x * ppc.x, ref_fac.y * ppc.y, ref_fac.z * ppc.z)
  | .rz => (ref_fac.x * ppc.x, ref_fac.y * ppc.y, ppc.z)
  | .xz => (ref_fac.x * ppc.x, ref_fac.y * ppc.y, 1)
  | .z1 => (ref_fac.x * ppc.x, 1, 1)

/-- `InjectorPositionRegular::getPositionUnitBox`: decompose the 0-based
particle index with C++ truncated integer division and place the point at the
cell-relative lattice midpoints.  Ignores the random engine. -/
def InjectorPositionRegular.getPositionUnitBox
    (dim : DimMode) (ppc : Int3) (ref_fac : Int3) (i_part : Int) : XDim3 :=
  let nx := (regularCounts dim ppc ref_fac).1
  let ny := (regularCounts dim ppc ref_fac).2.1
  let nz := (regularCounts dim ppc ref_fac).2.2
  let ix_part := Int.tdiv i_part (ny * nz)
  let iz_part := Int.tdiv (i_part - ix_part * (ny * nz)) ny
  let iy_part := i_part - ix_part * (ny * nz) - ny * iz_part
  ⟨(1/2 + (ix_part : ℚ)) / (nx : ℚ),
   (1/2 + (iy_part : ℚ)) / (ny : ℚ),
   (1/2 + (iz_part : ℚ)) / (nz : ℚ)⟩

/-- The strategy stored in the hand-rolled tagged union of InjectorPosition,
as a closed sum type. -/
inductive InjectorKind where
  | random
  | randomplane (dir : Int)
  | regular (ppc : Int3)

/-- `InjectorPosition::getPositionUnitBox`: dispatch on the stored strategy. -/
def InjectorPosition.getPositionUnitBox (dim : DimMode) (k : InjectorKind)
    (i_part : Int) (ref_fac : Int3) (e : RNG) : XDim3 :=
  match k with
  | .regular ppc => InjectorPositionRegular.getPositionUnitBox dim ppc ref_fac i_part
  | .randomplane dir => InjectorPositionRandomPlane.getPositionUnitBox dim dir e
  | .random => InjectorPositionRandom.getPositionUnitBox e

/-- The six bounds scalars stored in InjectorPosition (the spec's
RegionBounds). -/
structure RegionBounds where
  xmin : ℚ
  xmax : ℚ
  ymin : ℚ
  ymax : ℚ
  zmin : ℚ
  zmax : ℚ

/-- `InjectorPosition::insideBounds`: half-open membership test. -/
def insideBounds (r : RegionBounds) (x y z : ℚ) : Bool :=
  decide (x < r.xmax) && decide (x ≥ r.xmin) &&
  decide (y < r.ymax) && decide (y ≥ r.ymin) &&
  decide (z < r.zmax) && decide (z ≥ r.zmin)

/-- `InjectorPosition::insideBoundsInclusive`: closed membership test. -/
def insideBoundsInclusive (r : RegionBounds) (x y z : ℚ) : Bool :=
  decide (x ≤ r.xmax) && decide (x ≥ r.xmin) &&
  decide (y ≤ r.ymax) && decide (y ≥ r.ymin) &&
  decide (z ≤ r.zmax) && decide (z ≥ r.zmin)

/-- `InjectorPosition::overlapsWith`: separating-axis box overlap test. -/
def overlapsWith (r : RegionBounds) (lo hi : XDim3) : Bool :=
  !(decide (r.xmin > hi.x) || decide (r.xmax < lo.x)
    || decide (r.ymin > hi.y) || decide (r.ymax < lo.y)
    || decide (r.zmin > hi.z) || decide (r.zmax < lo.z))

/-! ## UpdatePosition.H

`PhysConst::c` and `std::sqrt` are abstract parameters: the claims proved
below hold for every value of `c` and every square-root function, in
particular for the floating-point one, since both integrators evaluate sqrt
at syntactically identical arguments. -/

/-- Whether the build mode updates `x` (`AMREX_SPACEDIM >= 2`). -/
def pushX (dim : DimMode) : Bool :=
  match dim with
  | .z1 => false
  | _ => true

/-- Whether the build mode updates `y` (WARPX_DIM_3D or WARPX_DIM_RZ). -/
def pushY (dim : DimMode) : Bool :=
  match dim with
  | .dim3 => true
  | .rz => true
  | _ => false

/-- `UpdatePosition`: explicit leapfrog position update. -/
def UpdatePosition (dim : DimMode) (sqrt : ℚ → ℚ) (c : ℚ)
    (x y z ux uy uz dt : ℚ) : ℚ × ℚ × ℚ :=
  let inv_c2 := 1 / (c * c)
  let inv_gamma := 1 / sqrt (1 + (ux * ux + uy * uy + uz * uz) * inv_c2)
  (if pushX dim then x + ux * inv_gamma * dt else x,
   if pushY dim then y + uy * inv_gamma * dt else y,
   z + uz * inv_gamma * dt)

/-- `UpdatePositionImplicit`: Crank–Nicolson position update from the
step-start momentum `u_n` and the midpoint momentum `u`. -/
def UpdatePositionImplicit (dim : DimMode) (sqrt : ℚ → ℚ) (c : ℚ)
    (x y z ux_n uy_n uz_n ux uy uz dt : ℚ) : ℚ × ℚ × ℚ :=
  let inv_c2 := 1 / (c * c)
  let ux_np1 := 2 * ux - ux_n
  let uy_np1 := 2 * uy - uy_n
  let uz_np1 := 2 * uz - uz_n
  let gamma_n := sqrt (1 + (ux_n * ux_n + uy_n * uy_n + uz_n * uz_n) * inv_c2)
  let gamma_np1 :=
    sqrt (1 + (ux_np1 * ux_np1 + uy_np1 * uy_np1 + uz_np1 * uz_np1) * inv_c2)
  let inv_gamma := 2 / (gamma_n + gamma_np1)
  (if pushX dim then x + ux * inv_gamma * dt else x,
   if pushY dim then y + uy * inv_gamma * dt else y,
   z + uz * inv_gamma * dt)

/-! ## Arithmetic helpers for truncated division -/

lemma tmod_neg_left (a b : Int) : Int.tmod (-a) b = -Int.tmod a b := by
  rw [Int.tmod_def, Int.tmod_def, Int.neg_tdiv]
  ring

lemma tdiv_tmod_self (i n : Int) (hn : 0 < n) : (Int.tmod i n).tdiv n = 0 := by
  rcases le_or_lt 0 i with hi | hi
  · exact Int.tdiv_eq_zero_of_lt (Int.tmod_nonneg n hi) (Int.tmod_lt_of_pos i hn)
  · have h1 : Int.tmod i n = -Int.tmod (-i) n := by
      rw [tmod_neg_left, neg_neg]
    rw [h1, Int.neg_tdiv,
      Int.tdiv_eq_zero_of_lt (Int.tmod_nonneg n (by omega))
        (Int.tmod_lt_of_pos (-i) hn), neg_zero]

lemma sub_tdiv_mul_eq_tmod (i n : Int) :
    i - Int.tdiv i n * n = Int.tmod i n := by
  rw [Int.tmod_def]
  ring

/-! ## Claim C9 -/

/-- C9: for every dimensionality mode, speed-of-light constant, square-root
function, position, momentum and timestep, calling the Crank–Nicolson update
`UpdatePositionImplicit` with step-start momentum equal to the midpoint
momentum (`u_n == u`) produces exactly the position of the explicit
`UpdatePosition` with that momentum: `u_{n+1} = 2u − u_n = u`, both gammas
coincide, and `2/(γ+γ) = 1/γ`. -/
theorem implicit_reduces_to_explicit (dim : DimMode) (sqrt : ℚ → ℚ) (c : ℚ)
    (x y z ux uy uz dt : ℚ) :
    UpdatePositionImplicit dim sqrt c x y z ux uy uz ux uy uz dt
      = UpdatePosition dim sqrt c x y z ux uy uz dt := by
  unfold UpdatePositionImplicit UpdatePosition
  have h2 : ∀ u : ℚ, 2 * u - u = u := fun u => by ring
  have hg : ∀ g : ℚ, 2 / (g + g) = 1 / g := fun g => by
    rw [← two_mul, div_mul_eq_div_div]
    norm_num
  simp only [h2, hg]

/-! ## Claim C10 -/

/-- C10: `overlapsWith` uses non-strict comparisons: it returns false exactly
when some axis is strictly separating (the query's high end strictly below the
region's minimum, or the query's low end strictly above the region's maximum);
consequently boxes that touch the region only on a shared face, edge or corner
(e.g. `hi.x == xmin` with all other axes overlapping) are reported as
overlapping. -/
theorem overlapsWith_nonstrict :
    (∀ (r : RegionBounds) (lo hi : XDim3),
        overlapsWith r lo hi = false ↔
          (hi.x < r.xmin ∨ r.xmax < lo.x ∨ hi.y < r.ymin ∨ r.ymax < lo.y
            ∨ hi.z < r.zmin ∨ r.zmax < lo.z))
    ∧ (∀ (r : RegionBounds) (lo hi : XDim3),
        hi.x = r.xmin → lo.x ≤ r.xmax →
        r.ymin ≤ hi.y → lo.y ≤ r.ymax →
        r.zmin ≤ hi.z → lo.z ≤ r.zmax →
        overlapsWith r lo hi = true) := by
  constructor
  · intro r lo hi
    simp only [overlapsWith, Bool.not_eq_false', Bool.or_eq_true,
      decide_eq_true_eq, gt_iff_lt]
    tauto
  · intro r lo hi h1 h2 h3 h4 h5 h6
    simp only [overlapsWith, Bool.not_eq_true', Bool.or_eq_false_iff,
      decide_eq_false_iff_not, not_lt, gt_iff_lt]
    refine ⟨⟨⟨⟨⟨?_, ?_⟩, ?_⟩, ?_⟩, ?_⟩, ?_⟩ <;> linarith

/-- Witness for C10: the unit region `[0,1]³` and a query box touching it
exactly on the face `x = 0` is reported as overlapping. -/
theorem overlapsWith_nonstrict_witness :
    overlapsWith ⟨0, 1, 0, 1, 0, 1⟩ ⟨-1, 0, 0⟩ ⟨0, 1, 1⟩ = true :=
  overlapsWith_nonstrict.2 ⟨0, 1, 0, 1, 0, 1⟩ ⟨-1, 0, 0⟩ ⟨0, 1, 1⟩
    (by norm_num) (by norm_num) (by norm_num) (by norm_num) (by norm_num)
    (by norm_num)

/-! ## Claim C8 -/

/-- C8: the Regular sampler with counts-per-cell `(2,2,2)` and refinement
factor `(1,1,1)` in full 3-D mode, evaluated at particle indices 0 through 7,
produces the 8 lattice points with coordinates in `{1/4, 3/4}`, covering all
8 combinations exactly once (the index decomposition is a bijection onto the
lattice). -/
theorem regular_2x2x2_lattice :
    ((List.range 8).map (fun i =>
        InjectorPosition.getPositionUnitBox DimMode.dim3
          (InjectorKind.regular ⟨2, 2, 2⟩) (i : Int) ⟨1, 1, 1⟩
          (fun _ => 0))).Perm
      [⟨1/4, 1/4, 1/4⟩, ⟨1/4, 1/4, 3/4⟩, ⟨1/4, 3/4, 1/4⟩, ⟨1/4, 3/4, 3/4⟩,
       ⟨3/4, 1/4, 1/4⟩, ⟨3/4, 1/4, 3/4⟩, ⟨3/4, 3/4, 1/4⟩, ⟨3/4, 3/4, 3/4⟩] := by
  with_unfolding_all decide

/-! ## Branch-selection helper lemmas -/

lemma primaryFlag_gather {a : PartitionArgs}
    (h : a.n_current_deposition_buffer ≤ a.n_field_gather_buffer) :
    primaryFlag a = a.gather_masks := by
  simp [primaryFlag, primaryIsGather, h]

lemma primaryIsGather_true {a : PartitionArgs}
    (h : a.n_current_deposition_buffer ≤ a.n_field_gather_buffer) :
    primaryIsGather a = true :=
  decide_eq_true h

lemma primaryIsGather_false {a : PartitionArgs}
    (h : ¬ a.n_current_deposition_buffer ≤ a.n_field_gather_buffer) :
    primaryIsGather a = false := by
  simp [primaryIsGather, h]

lemma secondaryWidth_current {a : PartitionArgs}
    (h : a.n_current_deposition_buffer ≤ a.n_field_gather_buffer) :
    secondaryWidth a = a.n_current_deposition_buffer := by
  simp [secondaryWidth, primaryIsGather, h]

lemma secondaryWidth_gather {a : PartitionArgs}
    (h : ¬ a.n_current_deposition_buffer ≤ a.n_field_gather_buffer) :
    secondaryWidth a = a.n_field_gather_buffer := by
  simp [secondaryWidth, primaryIsGather, h]

/-! ## Claim C1 -/

/-- A call on which the claim C1 fails as stated: the smaller (deposition)
width is zero, some particle is in the gather buffer, so the second pass is
skipped and `nfine_current` keeps its incoming value `-5`. -/
def cexC1 : PartitionArgs :=
  { np := 1
    n_current_deposition_buffer := 0
    n_field_gather_buffer := 1
    current_masks := fun _ => false
    gather_masks := fun _ => true
    m_deposit_on_main_grid := false
    m_gather_from_main_grid := false
    lev := 0
    nfine_current_in := -5
    nfine_gather_in := 1 }

/-- C1, counterexample: with `np = 1`, widths `(0, 1)`, a gather mask flagging
the only particle and incoming `nfine_current = -5`, the call returns
`nfine_current = -5`, violating `0 ≤ nfine_current`.  The counts are in/out
reference parameters and the skipped second pass leaves one of them
unassigned. -/
theorem partition_counts_bounded_cex :
    ¬ (0 ≤ (PartitionParticlesInBuffers cexC1 ([] : List Nat) 0).nfine_current) := by
  decide

/-- C1, amended: for every call whose incoming by-reference count values lie
in `[0, np]` (the caller initializes both to `np`), the returned counts
satisfy `0 ≤ nfine_current ≤ np` and `0 ≤ nfine_gather ≤ np`, for any masks,
buffer widths and policy flags. -/
theorem partition_counts_bounded {α : Type} (a : PartitionArgs)
    (tile : List α) (d : α)
    (h1 : 0 ≤ a.nfine_current_in) (h2 : a.nfine_current_in ≤ (a.np : Int))
    (h3 : 0 ≤ a.nfine_gather_in) (h4 : a.nfine_gather_in ≤ (a.np : Int)) :
    0 ≤ (PartitionParticlesInBuffers a tile d).nfine_current
    ∧ (PartitionParticlesInBuffers a tile d).nfine_current ≤ (a.np : Int)
    ∧ 0 ≤ (PartitionParticlesInBuffers a tile d).nfine_gather
    ∧ (PartitionParticlesInBuffers a tile d).nfine_gather ≤ (a.np : Int) := by
  obtain ⟨⟨b1, b2⟩, b3, b4⟩ := partitionCore_bounds a h1 h2 h3 h4
  show 0 ≤ finalCurrent a ∧ finalCurrent a ≤ (a.np : Int)
    ∧ 0 ≤ finalGather a ∧ finalGather a ≤ (a.np : Int)
  unfold finalCurrent finalGather
  split_ifs <;> omega

/-- The counterexample call with a well-formed incoming value instead. -/
def witC1 : PartitionArgs :=
  { cexC1 with nfine_current_in := 1 }

/-- Witness for C1 (amended) at a concrete call. -/
theorem partition_counts_bounded_witness :
    0 ≤ (PartitionParticlesInBuffers witC1 ([] : List Nat) 0).nfine_current
    ∧ (PartitionParticlesInBuffers witC1 ([] : List Nat) 0).nfine_current
        ≤ (witC1.np : Int)
    ∧ 0 ≤ (PartitionParticlesInBuffers witC1 ([] : List Nat) 0).nfine_gather
    ∧ (PartitionParticlesInBuffers witC1 ([] : List Nat) 0).nfine_gather
        ≤ (witC1.np : Int) :=
  partition_counts_bounded witC1 [] 0 (by decide) (by decide) (by decide)
    (by decide)

/-! ## Claim C2 -/

/-- A call with both widths zero on which the claim C2 fails: the gather mask
(still used for the single classification pass) flags the only particle. -/
def cexC2 : PartitionArgs :=
  { np := 1
    n_current_deposition_buffer := 0
    n_field_gather_buffer := 0
    current_masks := fun _ => true
    gather_masks := fun _ => true
    m_deposit_on_main_grid := false
    m_gather_from_main_grid := false
    lev := 0
    nfine_current_in := 1
    nfine_gather_in := 1 }

/-- C2, counterexample: with both buffer widths zero the equal-width branch
still classifies every particle against the gather mask; a mask flagging the
only particle yields `nfine_gather = 0 ≠ np = 1`. -/
theorem zero_width_fine_counts_cex :
    cexC2.n_current_deposition_buffer = 0
    ∧ cexC2.n_field_gather_buffer = 0
    ∧ (PartitionParticlesInBuffers cexC2 ([] : List Nat) 0).nfine_gather
        ≠ (cexC2.np : Int) := by
  decide

/-- C2, amended: a zero-width kind is realised by skipping its classification
pass, not by consulting its width during classification.  Absent the
main-grid overrides: if exactly one width is zero (the other positive) and
the incoming count for the zero-width kind is `np`, the returned count for
that kind is `np`; if both widths are zero, the single pass still classifies
against the gather mask and both returned counts equal the number of
particles that mask does not flag — `np` only when it flags none. -/
theorem zero_width_fine_counts {α : Type} (a : PartitionArgs)
    (tile : List α) (d : α) :
    ((a.n_current_deposition_buffer = 0 → 0 < a.n_field_gather_buffer →
      a.nfine_current_in = (a.np : Int) →
      ¬ (a.m_deposit_on_main_grid = true ∧ 0 < a.lev) →
      (PartitionParticlesInBuffers a tile d).nfine_current = (a.np : Int)))
    ∧ ((a.n_field_gather_buffer = 0 → 0 < a.n_current_deposition_buffer →
      a.nfine_gather_in = (a.np : Int) →
      ¬ (a.m_gather_from_main_grid = true ∧ 0 < a.lev) →
      (PartitionParticlesInBuffers a tile d).nfine_gather = (a.np : Int)))
    ∧ ((a.n_current_deposition_buffer = 0 → a.n_field_gather_buffer = 0 →
      ¬ (a.m_deposit_on_main_grid = true ∧ 0 < a.lev) →
      ¬ (a.m_gather_from_main_grid = true ∧ 0 < a.lev) →
      (PartitionParticlesInBuffers a tile d).nfine_current
          = (sepIndex a.gather_masks (List.range a.np) : Int)
      ∧ (PartitionParticlesInBuffers a tile d).nfine_gather
          = (sepIndex a.gather_masks (List.range a.np) : Int))) := by
  refine ⟨?_, ?_, ?_⟩
  · intro h0 hpos hin hoc
    have hne : ¬ a.n_current_deposition_buffer = a.n_field_gather_buffer := by
      omega
    show finalCurrent a = (a.np : Int)
    unfold finalCurrent
    rw [if_neg hoc]
    unfold partitionCore
    rw [if_neg hne]
    by_cases hnf : nFine a = a.np
    · rw [if_pos hnf]
    · rw [if_neg hnf]
      have hle : a.n_current_deposition_buffer ≤ a.n_field_gather_buffer := by
        omega
      have hsw : ¬ (0 < secondaryWidth a) := by
        rw [secondaryWidth_current hle]
        omega
      rw [if_neg hsw, if_pos (primaryIsGather_true hle)]
      exact hin
  · intro h0 hpos hin hog
    have hne : ¬ a.n_current_deposition_buffer = a.n_field_gather_buffer := by
      omega
    show finalGather a = (a.np : Int)
    unfold finalGather
    rw [if_neg hog]
    unfold partitionCore
    rw [if_neg hne]
    by_cases hnf : nFine a = a.np
    · rw [if_pos hnf]
    · rw [if_neg hnf]
      have hgt : ¬ a.n_current_deposition_buffer ≤ a.n_field_gather_buffer := by
        omega
      have hsw : ¬ (0 < secondaryWidth a) := by
        rw [secondaryWidth_gather hgt]
        omega
      rw [if_neg hsw]
      have hpg : primaryIsGather a = false := primaryIsGather_false hgt
      rw [if_neg (by rw [hpg]; exact Bool.false_ne_true)]
      exact hin
  · intro h0 hg0 hoc hog
    have heq : a.n_current_deposition_buffer = a.n_field_gather_buffer := by
      omega
    have hfl : primaryFlag a = a.gather_masks := primaryFlag_gather (by omega)
    have hcore : partitionCore a
        = ((nFine a : Int), (nFine a : Int), firstPass a) := by
      unfold partitionCore
      rw [if_pos heq]
    have hnf : nFine a = sepIndex a.gather_masks (List.range a.np) := by
      unfold nFine
      rw [hfl]
    constructor
    · show finalCurrent a = _
      unfold finalCurrent
      rw [if_neg hoc, hcore]
      exact congrArg _ hnf
    · show finalGather a = _
      unfold finalGather
      rw [if_neg hog, hcore]
      exact congrArg _ hnf

/-- A call with deposition width 0, gather width 2 and caller-initialized
incoming counts. -/
def witC2a : PartitionArgs :=
  { np := 1
    n_current_deposition_buffer := 0
    n_field_gather_buffer := 2
    current_masks := fun _ => true
    gather_masks := fun _ => true
    m_deposit_on_main_grid := false
    m_gather_from_main_grid := false
    lev := 0
    nfine_current_in := 1
    nfine_gather_in := 1 }

/-- A call with both widths zero whose gather mask flags particle 0 only. -/
def witC2b : PartitionArgs :=
  { np := 2
    n_current_deposition_buffer := 0
    n_field_gather_buffer := 0
    current_masks := fun _ => false
    gather_masks := fun i => decide (i = 0)
    m_deposit_on_main_grid := false
    m_gather_from_main_grid := false
    lev := 0
    nfine_current_in := 2
    nfine_gather_in := 2 }

/-- Witness for C2 (amended) at two concrete calls. -/
theorem zero_width_fine_counts_witness :
    (PartitionParticlesInBuffers witC2a ([] : List Nat) 0).nfine_current
        = (witC2a.np : Int)
    ∧ (PartitionParticlesInBuffers witC2b ([] : List Nat) 0).nfine_current
        = (sepIndex witC2b.gather_masks (List.range witC2b.np) : Int) :=
  ⟨(zero_width_fine_counts witC2a [] 0).1 (by decide) (by decide) (by decide)
      (by decide),
   ((zero_width_fine_counts witC2b [] 0).2.2 (by decide) (by decide)
      (by decide) (by decide)).1⟩

/-! ## Claim C3 -/

/-- A call with equal widths on which the claim C3 fails: the
deposit-on-main-grid override fires on a refined level while the gather
override does not. -/
def cexC3 : PartitionArgs :=
  { np := 1
    n_current_deposition_buffer := 5
    n_field_gather_buffer := 5
    current_masks := fun _ => false
    gather_masks := fun _ => false
    m_deposit_on_main_grid := true
    m_gather_from_main_grid := false
    lev := 1
    nfine_current_in := 1
    nfine_gather_in := 1 }

/-- C3, counterexample: with `Wc == Wg == 5`, no buffer particle, `lev = 1`
and only the deposit-on-main-grid flag set, the call returns
`nfine_current = 0 ≠ 1 = nfine_gather`. -/
theorem equal_widths_equal_counts_cex :
    cexC3.n_current_deposition_buffer = cexC3.n_field_gather_buffer
    ∧ (PartitionParticlesInBuffers cexC3 ([] : List Nat) 0).nfine_current
        ≠ (PartitionParticlesInBuffers cexC3 ([] : List Nat) 0).nfine_gather := by
  decide

/-- C3, amended: for every call in which the two buffer widths are equal, the
two returned fine counts are equal, provided the policy overrides do not act
asymmetrically: the level is the coarsest (`lev = 0`) or the two main-grid
flags agree. -/
theorem equal_widths_equal_counts {α : Type} (a : PartitionArgs)
    (tile : List α) (d : α)
    (hw : a.n_current_deposition_buffer = a.n_field_gather_buffer)
    (hsym : a.lev = 0 ∨ a.m_deposit_on_main_grid = a.m_gather_from_main_grid) :
    (PartitionParticlesInBuffers a tile d).nfine_current
      = (PartitionParticlesInBuffers a tile d).nfine_gather := by
  have hcore : partitionCore a
      = ((nFine a : Int), (nFine a : Int), firstPass a) := by
    unfold partitionCore
    rw [if_pos hw]
  show finalCurrent a = finalGather a
  unfold finalCurrent finalGather
  rw [hcore]
  rcases hsym with h | h
  · rw [if_neg (by simp [h]), if_neg (by simp [h])]
  · rw [h]

/-- The C3 counterexample call with the overrides agreeing. -/
def witC3 : PartitionArgs :=
  { cexC3 with m_deposit_on_main_grid := false }

/-- Witness for C3 (amended) at a concrete call. -/
theorem equal_widths_equal_counts_witness :
    (PartitionParticlesInBuffers witC3 ([] : List Nat) 0).nfine_current
      = (PartitionParticlesInBuffers witC3 ([] : List Nat) 0).nfine_gather :=
  equal_widths_equal_counts witC3 [] 0 (by decide) (Or.inr (by decide))

/-! ## Claim C4 -/

/-- A call with widths `(0, 1)`, a non-empty back segment and both masks
flagging the only particle, on which the claim C4 fails as stated: the
second pass is guarded by `n_buf > 0` and is skipped. -/
def cexC4 : PartitionArgs :=
  { np := 1
    n_current_deposition_buffer := 0
    n_field_gather_buffer := 1
    current_masks := fun _ => true
    gather_masks := fun _ => true
    m_deposit_on_main_grid := false
    m_gather_from_main_grid := false
    lev := 0
    nfine_current_in := 1
    nfine_gather_in := 1 }

/-- C4, counterexample: widths differ and the back segment is non-empty, yet
the non-primary fine count is not the sub-split point of a reclassification
of the back segment (which would be 0 here): with the smaller width equal to
0 the second pass is skipped and the count keeps its incoming value 1. -/
theorem two_level_partition_shape_cex :
    cexC4.n_current_deposition_buffer ≠ cexC4.n_field_gather_buffer
    ∧ nFine cexC4 < cexC4.np
    ∧ (PartitionParticlesInBuffers cexC4 ([] : List Nat) 0).nfine_current
        ≠ (nFine cexC4 : Int)
          + (sepIndex (secondaryFlag cexC4) (backSegment cexC4) : Int) := by
  decide

/-- C4, amended: when the widths differ, the back segment is non-empty
**and the smaller width is positive** (the second pass is guarded by
`n_buf > 0`), the partition stage behaves as claimed: the permutation is the
first pass with only its back segment `[n_fine, np)` reclassified against the
other mask and stable-partitioned in place, the first `n_fine` permutation
entries are unchanged, the primary kind's fine count (gather when
`Wg ≥ Wc`, ties to gather) remains `n_fine`, and the non-primary kind's fine
count is the sub-split point.  Counts are stated absent the policy overrides,
which belong to the later override stage. -/
theorem two_level_partition_shape {α : Type} (a : PartitionArgs)
    (tile : List α) (d : α)
    (hw : a.n_current_deposition_buffer ≠ a.n_field_gather_buffer)
    (hb : nFine a < a.np)
    (hs : 0 < secondaryWidth a)
    (hoc : ¬ (a.m_deposit_on_main_grid = true ∧ 0 < a.lev))
    (hog : ¬ (a.m_gather_from_main_grid = true ∧ 0 < a.lev)) :
    (PartitionParticlesInBuffers a tile d).pid
        = (firstPass a).take (nFine a)
          ++ stablePartition (secondaryFlag a) (backSegment a)
    ∧ ((PartitionParticlesInBuffers a tile d).pid).take (nFine a)
        = (firstPass a).take (nFine a)
    ∧ (if primaryIsGather a then
          (PartitionParticlesInBuffers a tile d).nfine_gather
        else (PartitionParticlesInBuffers a tile d).nfine_current)
        = (nFine a : Int)
    ∧ (if primaryIsGather a then
          (PartitionParticlesInBuffers a tile d).nfine_current
        else (PartitionParticlesInBuffers a tile d).nfine_gather)
        = (nFine a : Int)
          + (sepIndex (secondaryFlag a) (backSegment a) : Int) := by
  have hnf : ¬ nFine a = a.np := by omega
  have hcore : partitionCore a
      = (if primaryIsGather a then (subSplit a, (nFine a : Int), secondPass a)
         else ((nFine a : Int), subSplit a, secondPass a)) := by
    unfold partitionCore
    rw [if_neg hw, if_neg hnf, if_pos hs]
  have hpid : (PartitionParticlesInBuffers a tile d).pid = secondPass a := by
    show (partitionCore a).2.2 = _
    rw [hcore]
    by_cases h : primaryIsGather a = true
    · rw [if_pos h]
    · rw [if_neg h]
  refine ⟨?_, ?_, ?_, ?_⟩
  · rw [hpid]
    rfl
  · rw [hpid]
    unfold secondPass
    apply List.take_left'
    rw [List.length_take, length_firstPass]
    exact min_eq_left (nFine_le_np a)
  · by_cases hpg : primaryIsGather a = true
    · rw [if_pos hpg]
      show finalGather a = _
      unfold finalGather
      rw [if_neg hog, hcore, if_pos hpg]
    · rw [if_neg hpg]
      show finalCurrent a = _
      unfold finalCurrent
      rw [if_neg hoc, hcore, if_neg hpg]
  · by_cases hpg : primaryIsGather a = true
    · rw [if_pos hpg]
      show finalCurrent a = _
      unfold finalCurrent
      rw [if_neg hoc, hcore, if_pos hpg]
      rfl
    · rw [if_neg hpg]
      show finalGather a = _
      unfold finalGather
      rw [if_neg hog, hcore, if_neg hpg]
      rfl

/-- A call with widths `(1, 2)`, all particles in the gather buffer, and the
deposition mask flagging particle 0 only. -/
def witC4 : PartitionArgs :=
  { np := 2
    n_current_deposition_buffer := 1
    n_field_gather_buffer := 2
    current_masks := fun i => decide (i = 0)
    gather_masks := fun _ => true
    m_deposit_on_main_grid := false
    m_gather_from_main_grid := false
    lev := 0
    nfine_current_in := 2
    nfine_gather_in := 2 }

/-- Witness for C4 (amended) at a concrete call. -/
theorem two_level_partition_shape_witness :
    (PartitionParticlesInBuffers witC4 ([] : List Nat) 0).pid
      = (firstPass witC4).take (nFine witC4)
        ++ stablePartition (secondaryFlag witC4) (backSegment witC4) :=
  (two_level_partition_shape witC4 [] 0 (by decide) (by decide) (by decide)
    (by decide) (by decide)).1

/-! ## Claim C5 -/

/-- C5: stability of the two-level partition — for particle indices `i < j`
with identical classification flags (same primary-mask flag, and same
other-mask flag when they lie in the buffer of the primary pass, hence
ending in the same output segment), `i` appears before `j` in the returned
permutation, on every branch of the algorithm. -/
theorem partition_stable {α : Type} (a : PartitionArgs) (tile : List α)
    (d : α) (i j : Nat) (hij : i < j) (hj : j < a.np)
    (hf : primaryFlag a i = primaryFlag a j)
    (hg : primaryFlag a i = true → secondaryFlag a i = secondaryFlag a j) :
    ((PartitionParticlesInBuffers a tile d).pid).indexOf i
      < ((PartitionParticlesInBuffers a tile d).pid).indexOf j := by
  show ((partitionCore a).2.2).indexOf i < ((partitionCore a).2.2).indexOf j
  rcases partitionCore_pid_cases a with h | h
  · rw [h, firstPass_eq_blocks]
    exact blocks_indexOf_lt (primaryFlag a) (primaryFlag a) a.np hij hj hf
      (fun _ => hf)
  · rw [h, secondPass_eq]
    exact blocks_indexOf_lt (primaryFlag a) (secondaryFlag a) a.np hij hj hf hg

/-- A call with widths `(1, 2)` whose masks put both particles in both
buffers. -/
def witC5 : PartitionArgs :=
  { np := 2
    n_current_deposition_buffer := 1
    n_field_gather_buffer := 2
    current_masks := fun _ => true
    gather_masks := fun _ => true
    m_deposit_on_main_grid := false
    m_gather_from_main_grid := false
    lev := 0
    nfine_current_in := 2
    nfine_gather_in := 2 }

/-- Witness for C5 at a concrete call. -/
theorem partition_stable_witness :
    ((PartitionParticlesInBuffers witC5 ([] : List Nat) 0).pid).indexOf 0
      < ((PartitionParticlesInBuffers witC5 ([] : List Nat) 0).pid).indexOf 1 :=
  partition_stable witC5 [] 0 0 1 (by decide) (by decide) (by decide)
    (fun _ => by decide)

/-! ## Claim C6 -/

/-- C6: the particle tile is physically reordered exactly when at least one
final fine count (after the policy overrides) differs from `np`; in that case
the returned tile is one gather pass of the original tile through the final
permutation, and on the no-reorder path the tile (hence every attribute
array, by instantiating the row type) is returned unchanged. -/
theorem reorder_condition {α : Type} (a : PartitionArgs) (tile : List α)
    (d : α) :
    ((PartitionParticlesInBuffers a tile d).reordered = true ↔
      ((PartitionParticlesInBuffers a tile d).nfine_current ≠ (a.np : Int)
        ∨ (PartitionParticlesInBuffers a tile d).nfine_gather ≠ (a.np : Int)))
    ∧ ((PartitionParticlesInBuffers a tile d).reordered = true →
        (PartitionParticlesInBuffers a tile d).tile
          = gatherTile tile (PartitionParticlesInBuffers a tile d).pid d)
    ∧ ((PartitionParticlesInBuffers a tile d).reordered = false →
        (PartitionParticlesInBuffers a tile d).tile = tile) := by
  refine ⟨?_, ?_, ?_⟩
  · show (decide (finalCurrent a ≠ (a.np : Int))
        || decide (finalGather a ≠ (a.np : Int))) = true ↔ _
    simp only [Bool.or_eq_true, decide_eq_true_eq]
    exact Iff.rfl
  · intro h
    have hb : (decide (finalCurrent a ≠ (a.np : Int))
        || decide (finalGather a ≠ (a.np : Int))) = true := h
    show (if _ then _ else _) = _
    rw [if_pos hb]
    rfl
  · intro h
    have hb : (decide (finalCurrent a ≠ (a.np : Int))
        || decide (finalGather a ≠ (a.np : Int))) = false := h
    show (if _ then _ else _) = _
    rw [if_neg (by rw [hb]; exact Bool.false_ne_true)]

/-- A call with equal widths and no buffer particle: both counts are `np`
and no reorder happens. -/
def witC6 : PartitionArgs :=
  { np := 2
    n_current_deposition_buffer := 1
    n_field_gather_buffer := 1
    current_masks := fun _ => false
    gather_masks := fun _ => false
    m_deposit_on_main_grid := false
    m_gather_from_main_grid := false
    lev := 0
    nfine_current_in := 2
    nfine_gather_in := 2 }

/-- Witness for C6 at a concrete call on the no-reorder path: the tile is
returned unchanged. -/
theorem reorder_condition_witness :
    (PartitionParticlesInBuffers witC6 ([10, 20] : List Nat) 0).tile
      = [10, 20] :=
  (reorder_condition witC6 [10, 20] 0).2.2 (by decide)

/-! ## Claim C7 -/

/-- C7, counterexample: the Regular sampler in 1-D mode at particle index 0
returns `y = 1/2`, not 0, on the collapsed axis (it places the single lattice
midpoint there); so inactive-axis coordinates are not forced to 0 for every
strategy. -/
theorem collapsed_axis_values_cex :
    (InjectorPosition.getPositionUnitBox DimMode.z1
        (InjectorKind.regular ⟨1, 1, 1⟩) 0 ⟨1, 1, 1⟩ (fun _ => 0)).y ≠ 0 := by
  with_unfolding_all decide

/-- C7, amended: only the RandomPlane sampler forces collapsed axes to 0
(third component in 2-D mode; second and third in 1-D mode), for every `dir`
and rng state.  The Regular sampler instead returns the single lattice
midpoint `1/2` on every collapsed axis (unconditionally in 1-D mode; in 2-D
mode whenever its `ny` count is positive), and the Random sampler draws all
three components regardless of mode. -/
theorem collapsed_axis_values :
    (∀ (dir : Int) (e : RNG),
        (InjectorPositionRandomPlane.getPositionUnitBox DimMode.xz dir e).z = 0
      ∧ (InjectorPositionRandomPlane.getPositionUnitBox DimMode.z1 dir e).y = 0
      ∧ (InjectorPositionRandomPlane.getPositionUnitBox DimMode.z1 dir e).z = 0)
    ∧ (∀ (ppc ref_fac : Int3) (i : Int),
        (InjectorPositionRegular.getPositionUnitBox DimMode.z1 ppc ref_fac i).y
            = 1/2
      ∧ (InjectorPositionRegular.getPositionUnitBox DimMode.z1 ppc ref_fac i).z
            = 1/2)
    ∧ (∀ (ppc ref_fac : Int3) (i : Int), 0 < ref_fac.y * ppc.y →
        (InjectorPositionRegular.getPositionUnitBox DimMode.xz ppc ref_fac i).z
            = 1/2)
    ∧ (∀ (e : RNG),
        (InjectorPositionRandom.getPositionUnitBox e) = ⟨e 0, e 1, e 2⟩) := by
  refine ⟨?_, ?_, ?_, fun e => rfl⟩
  · intro dir e
    unfold InjectorPositionRandomPlane.getPositionUnitBox
    refine ⟨?_, ?_, ?_⟩ <;> (split_ifs <;> rfl)
  · intro ppc ref_fac i
    unfold InjectorPositionRegular.getPositionUnitBox regularCounts
    dsimp only
    constructor <;>
      · simp only [mul_one, one_mul, Int.tdiv_one, sub_self, Int.zero_tdiv,
          mul_zero, sub_zero]
        norm_num
  · intro ppc ref_fac i hn
    unfold InjectorPositionRegular.getPositionUnitBox regularCounts
    dsimp only
    rw [mul_one, sub_tdiv_mul_eq_tmod, tdiv_tmod_self _ _ hn]
    norm_num

/-- Witness for C7 (amended) at a concrete call: in 2-D mode with counts
`(1,1,1)` the Regular sampler's collapsed third component is `1/2`. -/
theorem collapsed_axis_values_witness :
    (InjectorPositionRegular.getPositionUnitBox DimMode.xz ⟨1, 1, 1⟩ ⟨1, 1, 1⟩
        5).z = 1/2 :=
  collapsed_axis_values.2.2.1 ⟨1, 1, 1⟩ ⟨1, 1, 1⟩ 5 (by norm_num)

end WarpXProof
